import Mathlib

set_option maxHeartbeats 1000000

namespace Spec2Proof

/-!
Shallow embedding of the `eslint-plugin-jshow` rule sources
(`packages/rule/src/rules/*.ts`, the unused-import rule module and the
`scripts/upgrade-version.js` release script).  Pure fragments of the
TypeScript code are translated into executable Lean definitions; AST nodes
are replaced by records carrying exactly the fields the translated code
reads.  External library calls (`String.prototype.localeCompare`,
`RegExp.prototype.test` on the JSDoc pattern, `semver.inc`) are modelled by
explicit parameters or by codepoint comparison, as noted at each site.
-/

/-- Stable insertion of an element into a list under a boolean comparison.
Together with `sortLe` this models `Array.prototype.sort(comparator)`.  In
every use below the compared keys are pairwise distinct (the inputs are
deduplicated by exactly that key first), so the result is the unique sorted
arrangement and does not depend on the sorting algorithm. -/
def insertLe {α : Type} (le : α → α → Bool) (x : α) : List α → List α
  | [] => [x]
  | y :: t => if le x y then x :: y :: t else y :: insertLe le x t

/-- Insertion sort under a boolean comparison; see `insertLe`. -/
def sortLe {α : Type} (le : α → α → Bool) : List α → List α
  | [] => []
  | x :: t => insertLe le x (sortLe le t)

theorem mem_insertLe {α : Type} (le : α → α → Bool) (x a : α) (l : List α) :
    a ∈ insertLe le x l ↔ a = x ∨ a ∈ l := by
  induction l with
  | nil => simp [insertLe]
  | cons y t ih =>
    by_cases h : le x y = true
    · simp [insertLe, h]
    · simp only [insertLe, h]
      simp [ih]
      tauto

theorem mem_sortLe {α : Type} (le : α → α → Bool) (a : α) (l : List α) :
    a ∈ sortLe le l ↔ a ∈ l := by
  induction l with
  | nil => simp [sortLe]
  | cons x t ih => simp [sortLe, mem_insertLe, ih]

/-- Model of `Array.prototype.join(sep)`. -/
def joinSep (sep : String) : List String → String
  | [] => ""
  | [x] => x
  | x :: y :: t => x ++ sep ++ joinSep sep (y :: t)

/-! ## sort-import: merging imports that share one module specifier

Translated from `sort-import.ts` (`collectSpecifiers`,
`shouldUseTypePrefix`, `buildNamedSpecifiersText`, `buildMergedImportText`).
The source name `shouldUseTypePrefix` is rendered here as
`shouldUseTypeMark` (same for derived names).  A named import specifier
carries its imported name, its local binding name and whether it is
type-only; a default specifier carries its local name and type-only flag.
`String.prototype.localeCompare` on identifier names is modelled by
codepoint order on strings. -/

structure ImpNamedSpec where
  importedName : String
  localName : String
  isType : Bool
  deriving DecidableEq, Repr

structure ImpDefaultSpec where
  localName : String
  isType : Bool
  deriving DecidableEq, Repr

/-- The first loop of the source `shouldUseTypePrefix`: walks the unique
default specifiers computing `allDefaultAreType` (first component) and
`defaultIsType` (second component: once set it is kept; the walk stops at
the first non-type specifier). -/
def defaultTypeScan : List ImpDefaultSpec → Bool → Bool × Bool
  | [], defaultIsType => (true, defaultIsType)
  | item :: rest, defaultIsType =>
    let d := if defaultIsType then defaultIsType else item.isType
    if !item.isType then (false, d) else defaultTypeScan rest d

/-- Source `shouldUseTypePrefix`: whether the merged statement is rendered
with an `import type ` head. -/
def shouldUseTypeMark (uniqueDefaults : List ImpDefaultSpec)
    (uniqueNamed : List ImpNamedSpec) : Bool :=
  let scanned := defaultTypeScan uniqueDefaults false
  let allDefaultAreType := scanned.1
  let defaultIsType := scanned.2
  let allNamedAreType := uniqueNamed.all (fun i => i.isType)
  let isAllType :=
    (decide (uniqueDefaults.length = 0) || allDefaultAreType) &&
    (decide (uniqueNamed.length = 0) || allNamedAreType)
  isAllType || (defaultIsType && decide (0 < uniqueDefaults.length))

/-- Codepoint comparison of char lists, the model of
`String.prototype.localeCompare` on identifier names (adequate for the
ASCII identifiers the claims range over). -/
def charListLe : List Char → List Char → Bool
  | [], _ => true
  | _ :: _, [] => false
  | a :: as, b :: bs =>
    if a.toNat < b.toNat then true
    else if b.toNat < a.toNat then false
    else charListLe as bs

/-- `a.localeCompare(b) <= 0`, modelled by codepoint order. -/
def strLe (a b : String) : Bool := charListLe a.data b.data

/-- Comparator `a.spec.local.name.localeCompare(b.spec.local.name)`,
modelled by codepoint order on the local names. -/
def specLocalLe (a b : ImpNamedSpec) : Bool := strLe a.localName b.localName

/-- The per-specifier text built inside the `map` of the source
`buildNamedSpecifiersText`: an inline `type ` marker when the specifier is
type-only and the whole statement is not type-only, then either
`imported as local` or the plain local name. -/
def renderNamedSpec (useTypeMark : Bool) (s : ImpNamedSpec) : String :=
  (if s.isType && !useTypeMark then "type " else "") ++
  (if s.importedName ≠ s.localName then s.importedName ++ " as " ++ s.localName
   else s.localName)

/-- Source `buildNamedSpecifiersText`: splits the unique named specifiers
into type and value sub-lists (type first, mirroring the source push order),
sorts each by local name and joins the rendered texts with `, `. -/
def buildNamedSpecifiersText (uniqueNamed : List ImpNamedSpec)
    (useTypeMark : Bool) : String :=
  let typeSpecs := uniqueNamed.filter (fun s => s.isType)
  let valueSpecs := uniqueNamed.filter (fun s => !s.isType)
  let typeSorted := sortLe specLocalLe typeSpecs
  let valueSorted := sortLe specLocalLe valueSpecs
  let allSpecs := typeSorted ++ valueSorted
  joinSep ", " (allSpecs.map (renderNamedSpec useTypeMark))

/-- Source `buildMergedImportText`; `sourceValue` is the module specifier
and `quote` the quote character recovered from the original source text. -/
def buildMergedImportText (uniqueDefaults : List ImpDefaultSpec)
    (uniqueNamed : List ImpNamedSpec) (sourceValue quote : String) : String :=
  let u := shouldUseTypeMark uniqueDefaults uniqueNamed
  let t0 := if u then "import type " else "import "
  let t1 :=
    match uniqueDefaults.head? with
    | some firstDefault =>
      t0 ++ firstDefault.localName ++
        (if 0 < uniqueNamed.length then ", " else "")
    | none => t0
  let t2 :=
    if 0 < uniqueNamed.length then
      t1 ++ "\x7b " ++ buildNamedSpecifiersText uniqueNamed u ++ " \x7d"
    else t1
  t2 ++ " from " ++ quote ++ sourceValue ++ quote ++ ";"

/-! ## sort-import: group clusters and separators -/

/-- The record built by `collectEntries` for one import declaration,
without the AST node pointer. -/
structure ImportEntry where
  text : String
  key : String
  groupIndex : Nat
  clusterIndex : Int
  originalIndex : Nat
  startPos : Nat
  hasLeadingComment : Bool
  deriving DecidableEq, Repr

/-- Source `normalizeGroupClusters`: pads/normalizes the user `clusters`
list to the group count; only the exact values 1 and 2 survive, everything
else (including missing entries and a missing list) becomes 0. -/
def normalizeGroupClusters (clusters : Option (List Int)) (length : Nat) :
    List Int :=
  (List.range length).map fun index =>
    match clusters.bind (fun cs => (cs[index]? : Option Int)) with
    | some v => if v = 1 then 1 else if v = 2 then 2 else 0
    | none => 0

/-- Source `getClusterValue`: `clusters[groupIndex] ?? 0`. -/
def getClusterValue (groupIndex : Nat) (clusters : List Int) : Int :=
  (clusters[groupIndex]?).getD 0

/-- Source `getSeparatorBetween`: the text inserted between two adjacent
entries of the rebuilt block. -/
def getSeparatorBetween (prev current : ImportEntry) (lineBreak : String) :
    String :=
  if prev.groupIndex ≠ current.groupIndex then lineBreak ++ lineBreak
  else if prev.hasLeadingComment then lineBreak
  else
    let extraAfterPrev : Nat := if 1 ≤ prev.clusterIndex then 1 else 0
    let extraBeforeCurrent : Nat := if 2 ≤ current.clusterIndex then 1 else 0
    String.join (List.replicate (1 + extraAfterPrev + extraBeforeCurrent) lineBreak)

/-- Tail of the source `buildOutput` loop. -/
def buildOutputAux (prev : ImportEntry) (lineBreak : String) :
    List ImportEntry → String
  | [] => ""
  | e :: rest =>
    getSeparatorBetween prev e lineBreak ++ e.text ++ buildOutputAux e lineBreak rest

/-- Source `buildOutput`: concatenates entry texts with the computed
separators. -/
def buildOutput (entries : List ImportEntry) (lineBreak : String) : String :=
  match entries with
  | [] => ""
  | e :: rest => e.text ++ buildOutputAux e lineBreak rest

/-! ## Claim C1 -/

/-- The specifier text without the inline `type ` marker (the second half of
the text built for one specifier). -/
def renderPlainSpec (s : ImpNamedSpec) : String :=
  if s.importedName ≠ s.localName then s.importedName ++ " as " ++ s.localName
  else s.localName

/-- The named-specifier rendering demanded by claim C1 as written: non-type
specifiers first, then the `type `-marked specifiers, each sub-list sorted
by local name. -/
def claimC1NamedText (uniqueNamed : List ImpNamedSpec) : String :=
  joinSep ", "
    ((sortLe specLocalLe (uniqueNamed.filter fun s => !s.isType)).map renderPlainSpec ++
      (sortLe specLocalLe (uniqueNamed.filter fun s => s.isType)).map
        (fun s => "type " ++ renderPlainSpec s))

theorem defaultTypeScan_fst (l : List ImpDefaultSpec) (b : Bool) :
    (defaultTypeScan l b).1 = l.all (fun d => d.isType) := by
  induction l generalizing b with
  | nil => simp [defaultTypeScan]
  | cons i r ih =>
    by_cases h : i.isType = true
    · simp [defaultTypeScan, h, ih]
    · simp only [Bool.not_eq_true] at h
      simp [defaultTypeScan, h]

theorem defaultTypeScan_snd (l : List ImpDefaultSpec)
    (h : ∀ d ∈ l, d.isType = false) : (defaultTypeScan l false).2 = false := by
  cases l with
  | nil => rfl
  | cons i r =>
    have := h i (by simp)
    simp [defaultTypeScan, this]

theorem shouldUseTypeMark_false (uniqueDefaults : List ImpDefaultSpec)
    (uniqueNamed : List ImpNamedSpec)
    (hNotAllType : (∃ d ∈ uniqueDefaults, d.isType = false) ∨
      (∃ n ∈ uniqueNamed, n.isType = false))
    (hNoTypeDefault : ∀ d ∈ uniqueDefaults, d.isType = false) :
    shouldUseTypeMark uniqueDefaults uniqueNamed = false := by
  have hsnd := defaultTypeScan_snd uniqueDefaults hNoTypeDefault
  have hfst := defaultTypeScan_fst uniqueDefaults false
  unfold shouldUseTypeMark
  simp only [hsnd, Bool.false_and, Bool.or_false]
  rcases hNotAllType with ⟨d, hd, ht⟩ | ⟨n, hn, ht⟩
  · have hne : uniqueDefaults.length ≠ 0 := by
      intro h0
      rw [List.length_eq_zero] at h0
      subst h0
      simp at hd
    have hall : uniqueDefaults.all (fun x => x.isType) = false := by
      simp [List.all_eq_true]
      exact ⟨d, hd, by simp [ht]⟩
    simp [hfst, hall, hne]
  · have hne : uniqueNamed.length ≠ 0 := by
      intro h0
      rw [List.length_eq_zero] at h0
      subst h0
      simp at hn
    have hall : uniqueNamed.all (fun x => x.isType) = false := by
      simp [List.all_eq_true]
      exact ⟨n, hn, by simp [ht]⟩
    simp [hall, hne]

theorem buildNamedSpecifiersText_split (uniqueNamed : List ImpNamedSpec) :
    buildNamedSpecifiersText uniqueNamed false =
      joinSep ", "
        ((sortLe specLocalLe (uniqueNamed.filter fun s => s.isType)).map
            (fun s => "type " ++ renderPlainSpec s) ++
          (sortLe specLocalLe (uniqueNamed.filter fun s => !s.isType)).map
            renderPlainSpec) := by
  unfold buildNamedSpecifiersText
  have h1 : (sortLe specLocalLe (uniqueNamed.filter fun s => s.isType)).map
      (renderNamedSpec false) =
      (sortLe specLocalLe (uniqueNamed.filter fun s => s.isType)).map
        (fun s => "type " ++ renderPlainSpec s) := by
    apply List.map_congr_left
    intro s hs
    have hT : s.isType = true := (List.mem_filter.1 ((mem_sortLe _ s _).1 hs)).2
    simp [renderNamedSpec, renderPlainSpec, hT]
  have h2 : (sortLe specLocalLe (uniqueNamed.filter fun s => !s.isType)).map
      (renderNamedSpec false) =
      (sortLe specLocalLe (uniqueNamed.filter fun s => !s.isType)).map
        renderPlainSpec := by
    apply List.map_congr_left
    intro s hs
    have hT : s.isType = false := by
      have := (List.mem_filter.1 ((mem_sortLe _ s _).1 hs)).2
      simpa using this
    simp [renderNamedSpec, renderPlainSpec, hT]
  simp only [List.map_append, h1, h2]

/-- Claim C1, counterexample: for the merge of `import { a } from './x'`
with `import { type b } from './x'` (no default specifier, not all
type-only) the code renders the named list as `type b, a` — the `type `
specifier comes first — while the claim as written demands `a, type b`. -/
theorem c1_counterexample :
    buildNamedSpecifiersText [⟨"a", "a", false⟩, ⟨"b", "b", true⟩] false =
        "type b, a" ∧
      claimC1NamedText [⟨"a", "a", false⟩, ⟨"b", "b", true⟩] = "a, type b" ∧
      buildNamedSpecifiersText [⟨"a", "a", false⟩, ⟨"b", "b", true⟩] false ≠
        claimC1NamedText [⟨"a", "a", false⟩, ⟨"b", "b", true⟩] := by
  refine ⟨by decide, by decide, by decide⟩

/-- Claim C1 (amended): for a merged import whose collected specifiers are
not all type-only and whose default specifiers (if any) are all value
specifiers, the statement head is the value head `import ` (the type mark is
not used), and the named list is rendered with the `type `-marked
specifiers BEFORE the non-type specifiers, each of the two sub-lists
independently alphabetized by local binding name. -/
theorem c1_amended (uniqueDefaults : List ImpDefaultSpec)
    (uniqueNamed : List ImpNamedSpec) (sourceValue quote : String)
    (hNotAllType : (∃ d ∈ uniqueDefaults, d.isType = false) ∨
      (∃ n ∈ uniqueNamed, n.isType = false))
    (hNoTypeDefault : ∀ d ∈ uniqueDefaults, d.isType = false) :
    shouldUseTypeMark uniqueDefaults uniqueNamed = false ∧
      buildNamedSpecifiersText uniqueNamed false =
        joinSep ", "
          ((sortLe specLocalLe (uniqueNamed.filter fun s => s.isType)).map
              (fun s => "type " ++ renderPlainSpec s) ++
            (sortLe specLocalLe (uniqueNamed.filter fun s => !s.isType)).map
              renderPlainSpec) ∧
      buildMergedImportText uniqueDefaults uniqueNamed sourceValue quote =
        (match uniqueDefaults.head? with
          | some firstDefault =>
            if 0 < uniqueNamed.length then
              "import " ++ firstDefault.localName ++ ", \x7b " ++
                buildNamedSpecifiersText uniqueNamed false ++ " \x7d from " ++
                quote ++ sourceValue ++ quote ++ ";"
            else
              "import " ++ firstDefault.localName ++ " from " ++ quote ++
                sourceValue ++ quote ++ ";"
          | none =>
            if 0 < uniqueNamed.length then
              "import \x7b " ++ buildNamedSpecifiersText uniqueNamed false ++
                " \x7d from " ++ quote ++ sourceValue ++ quote ++ ";"
            else "import " ++ " from " ++ quote ++ sourceValue ++ quote ++ ";") := by
  have hmark := shouldUseTypeMark_false uniqueDefaults uniqueNamed hNotAllType hNoTypeDefault
  refine ⟨hmark, buildNamedSpecifiersText_split uniqueNamed, ?_⟩
  unfold buildMergedImportText
  rw [hmark]
  cases h : uniqueDefaults.head? with
  | none =>
    by_cases hn : 0 < uniqueNamed.length
    · simp [hn, String.append_assoc]
    · simp [hn, String.append_assoc]
  | some firstDefault =>
    by_cases hn : 0 < uniqueNamed.length
    · simp [hn, String.append_assoc]
    · simp [hn, String.append_assoc]

/-- Witness for `c1_amended` at the concrete counterexample input. -/
theorem c1_amended_witness :
    ((∃ d ∈ ([] : List ImpDefaultSpec), d.isType = false) ∨
      (∃ n ∈ [(⟨"a", "a", false⟩ : ImpNamedSpec), ⟨"b", "b", true⟩],
        n.isType = false)) ∧
      shouldUseTypeMark [] [⟨"a", "a", false⟩, ⟨"b", "b", true⟩] = false ∧
      buildNamedSpecifiersText [⟨"a", "a", false⟩, ⟨"b", "b", true⟩] false =
        "type b, a" := by
  have h := c1_amended [] [⟨"a", "a", false⟩, ⟨"b", "b", true⟩] "./x" "'"
    (Or.inr ⟨⟨"a", "a", false⟩, by decide⟩) (by decide)
  exact ⟨Or.inr ⟨⟨"a", "a", false⟩, by decide⟩, h.1, by decide⟩

/-! ## Claim C8 -/

/-- Claim C8: `clusters` entries other than the numbers 1 and 2 (including
missing entries and a missing list) are normalized to 0, and the separator
between two adjacent imports of different groups is always exactly two line
breaks (one blank line) no matter what either entry's cluster value is:
cluster values are only read in the same-group branch. -/
theorem c8_cluster_spacing (clusters : Option (List Int)) (len i : Nat)
    (h : i < len) :
    ((∀ v : Int, clusters.bind (fun cs => (cs[i]? : Option Int)) = some v →
        v ≠ 1 → v ≠ 2 → (normalizeGroupClusters clusters len)[i]? = some 0) ∧
      (clusters.bind (fun cs => (cs[i]? : Option Int)) = none →
        (normalizeGroupClusters clusters len)[i]? = some 0)) ∧
      (∀ (prev current : ImportEntry) (lineBreak : String),
        prev.groupIndex ≠ current.groupIndex →
        getSeparatorBetween prev current lineBreak = lineBreak ++ lineBreak) := by
  refine ⟨⟨?_, ?_⟩, ?_⟩
  · intro v hv h1 h2
    simp [normalizeGroupClusters, List.getElem?_map, List.getElem?_range, h, hv, h1, h2]
  · intro hv
    simp [normalizeGroupClusters, List.getElem?_map, List.getElem?_range, h, hv]
  · intro prev current lineBreak hg
    simp [getSeparatorBetween, hg]

/-- Witness for `c8_cluster_spacing`: entry value 5 and a missing entry both
normalize to 0, and entries of groups 0 and 1 with cluster values 1 and 2
are still separated by exactly two line breaks. -/
theorem c8_cluster_spacing_witness :
    (normalizeGroupClusters (some [(5 : Int), -1]) 3)[0]? = some 0 ∧
      (normalizeGroupClusters (some [(5 : Int), -1]) 3)[2]? = some 0 ∧
      getSeparatorBetween ⟨"", "", 0, 1, 0, 0, false⟩ ⟨"", "", 1, 2, 1, 10, false⟩
        "\n" = "\n\n" :=
  ⟨(c8_cluster_spacing (some [5, -1]) 3 0 (by decide)).1.1 5 (by decide)
      (by decide) (by decide),
    (c8_cluster_spacing (some [5, -1]) 3 2 (by decide)).1.2 (by decide),
    (c8_cluster_spacing (some [5, -1]) 3 0 (by decide)).2 _ _ _ (by decide)⟩

/-! ## explicit-member-accessibility

Translated from `explicit-member-accessibility.ts`.  A class member is
modelled by the fields the checkers read: the `static` flag, the optional
accessibility keyword, whether the key is a private identifier (`#foo`) and
the member kind.  Report fixers are modelled by the mode argument passed to
`getAccessibilityFixer` (`add`/`remove`/`replace`); a `none` fix models the
`null` fixer produced under `noFix`. -/

inductive Accessibility where
  | publicA
  | protectedA
  | privateA
  deriving DecidableEq, Repr

inductive StaticAccessibilityLevel where
  | off
  | explicit
  | noAccessibility
  deriving DecidableEq, Repr

inductive EmaMessageId where
  | unwantedPublicAccessibility
  | missingAccessibility
  deriving DecidableEq, Repr

inductive AccessibilityFixMode where
  | add
  | remove
  | replace
  deriving DecidableEq, Repr

structure EmaReport where
  messageId : EmaMessageId
  fixMode : Option AccessibilityFixMode
  deriving DecidableEq, Repr

inductive MemberKind where
  | constructorK
  | getK
  | setK
  | methodK
  deriving DecidableEq, Repr

structure MemberNode where
  isStatic : Bool
  accessibility : Option Accessibility
  keyIsPrivateIdent : Bool
  kind : MemberKind
  deriving DecidableEq, Repr

/-- Source `checkStaticModifier`.  The TypeScript function returns `true`
for non-static members and `undefined` (falsy) on every other path; the
second component is `true` exactly when the source returns a truthy value.
The first component lists the reports it emits, in order. -/
def checkStaticModifier (accessibility : StaticAccessibilityLevel)
    (node : MemberNode) (noFix : Bool := false) : List EmaReport × Bool :=
  if !node.isStatic then ([], true)
  else if accessibility = .off then ([], false)
  else
    match accessibility with
    | .explicit =>
      match node.accessibility with
      | none =>
        ([⟨.unwantedPublicAccessibility, if noFix then none else some .add⟩], false)
      | some a =>
        if a ≠ .publicA then
          ([⟨.missingAccessibility, if noFix then none else some .replace⟩], false)
        else ([], false)
    | .noAccessibility =>
      match node.accessibility with
      | some _ =>
        ([⟨.missingAccessibility, if noFix then none else some .remove⟩], false)
      | none => ([], false)
    | .off => ([], false)

/-- The normalized non-`off` category configuration
(`Exclude<AccessibilityLevelAndFixer, 'off'>`). -/
inductive AccessibilityProp where
  | explicitP (fixWith : Accessibility) (ignoredNames : List String)
  | noPublicP (ignoredNames : List String)
  deriving DecidableEq, Repr

def AccessibilityProp.ignoredNames : AccessibilityProp → List String
  | .explicitP _ ign => ign
  | .noPublicP ign => ign

/-- Source `checkAccessibilityModifier`: the shared category check. -/
def checkAccessibilityModifier (prop : AccessibilityProp) (node : MemberNode)
    (name : String) (noFix : Bool := false) : List EmaReport :=
  if prop.ignoredNames.contains name then []
  else
    match prop with
    | .explicitP _ _ =>
      match node.accessibility with
      | none => [⟨.unwantedPublicAccessibility, if noFix then none else some .add⟩]
      | some _ => []
    | .noPublicP _ =>
      if node.accessibility = some .publicA then
        [⟨.missingAccessibility, if noFix then none else some .remove⟩]
      else []

/-- A per-kind configuration after `parseOverrideAccessibility`. -/
inductive LevelCfg where
  | off
  | explicitCfg (fixWith : Accessibility) (ignoredNames : List String)
  | noPublicCfg (ignoredNames : List String)
  deriving DecidableEq, Repr

structure MethodCheckOption where
  staticAccessibility : StaticAccessibilityLevel
  constructors : LevelCfg
  accessors : LevelCfg
  methods : LevelCfg
  deriving DecidableEq, Repr

/-- Source `checkMethodAccessibilityModifier`: selects the per-kind
configuration, runs the static check first, and runs the category check
only when the static check returned a truthy value and the kind is not
`off` and the key is not a private identifier. -/
def checkMethodAccessibilityModifier (node : MemberNode) (name : String)
    (opt : MethodCheckOption) : List EmaReport :=
  let cfg :=
    match node.kind with
    | .constructorK => opt.constructors
    | .getK | .setK => opt.accessors
    | .methodK => opt.methods
  let stat := checkStaticModifier opt.staticAccessibility node
  if !stat.2 then stat.1
  else
    match cfg with
    | .off => stat.1
    | .explicitCfg fixWith ignoredNames =>
      if node.keyIsPrivateIdent then stat.1
      else stat.1 ++ checkAccessibilityModifier (.explicitP fixWith ignoredNames) node name
    | .noPublicCfg ignoredNames =>
      if node.keyIsPrivateIdent then stat.1
      else stat.1 ++ checkAccessibilityModifier (.noPublicP ignoredNames) node name

/-- Source `checkPropertyAccessibilityModifier`: the same static-first
pattern for `PropertyDefinition` members. -/
def checkPropertyAccessibilityModifier (node : MemberNode) (name : String)
    (staticAccessibility : StaticAccessibilityLevel) (properties : LevelCfg) :
    List EmaReport :=
  let stat := checkStaticModifier staticAccessibility node
  if !stat.2 then stat.1
  else
    match properties with
    | .off => stat.1
    | .explicitCfg fixWith ignoredNames =>
      if node.keyIsPrivateIdent then stat.1
      else stat.1 ++ checkAccessibilityModifier (.explicitP fixWith ignoredNames) node name
    | .noPublicCfg ignoredNames =>
      if node.keyIsPrivateIdent then stat.1
      else stat.1 ++ checkAccessibilityModifier (.noPublicP ignoredNames) node name

/-! ## Claim C2 -/

theorem checkStaticModifier_snd_of_static (lvl : StaticAccessibilityLevel)
    (node : MemberNode) (h : node.isStatic = true) (noFix : Bool) :
    (checkStaticModifier lvl node noFix).2 = false := by
  cases lvl <;> cases hacc : node.accessibility <;>
    simp [checkStaticModifier, h, hacc] <;> split <;> simp

theorem checkStaticModifier_of_not_static (lvl : StaticAccessibilityLevel)
    (node : MemberNode) (h : node.isStatic = false) (noFix : Bool) :
    checkStaticModifier lvl node noFix = ([], true) := by
  simp [checkStaticModifier, h]

/-- Claim C2, counterexample: a static method with no accessibility
keyword, under `staticAccessibility: 'off'` and an `explicit` methods
policy.  The static check reports nothing, yet the category check is
skipped: the rule reports nothing at all, although the category check run
on its own would report. -/
theorem c2_counterexample :
    (checkStaticModifier .off ⟨true, none, false, .methodK⟩).1 = [] ∧
      checkMethodAccessibilityModifier ⟨true, none, false, .methodK⟩ "m"
        ⟨.off, .noPublicCfg [], .explicitCfg .protectedA [], .explicitCfg .protectedA []⟩ = [] ∧
      checkAccessibilityModifier (.explicitP .protectedA [])
        ⟨true, none, false, .methodK⟩ "m" ≠ [] := by
  refine ⟨by decide, by decide, by decide⟩

/-- Claim C2 (amended): the static check is evaluated before the category
check (the report list always starts with the static reports), and the
category check is skipped for EVERY static member — whether or not the
static check reported anything — because `checkStaticModifier` returns a
truthy value only for non-static members.  For non-static members the
static check reports nothing and the `staticAccessibility` setting is
irrelevant. -/
theorem c2_amended (node : MemberNode) (name : String)
    (opt : MethodCheckOption) (propCfg : LevelCfg) :
    (∃ categoryReports,
        checkMethodAccessibilityModifier node name opt =
          (checkStaticModifier opt.staticAccessibility node).1 ++ categoryReports) ∧
      (node.isStatic = true →
        checkMethodAccessibilityModifier node name opt =
          (checkStaticModifier opt.staticAccessibility node).1 ∧
        checkPropertyAccessibilityModifier node name opt.staticAccessibility propCfg =
          (checkStaticModifier opt.staticAccessibility node).1) ∧
      (node.isStatic = false →
        (checkStaticModifier opt.staticAccessibility node).1 = [] ∧
        checkMethodAccessibilityModifier node name opt =
          checkMethodAccessibilityModifier node name
            { opt with staticAccessibility := .off } ∧
        checkPropertyAccessibilityModifier node name opt.staticAccessibility propCfg =
          checkPropertyAccessibilityModifier node name .off propCfg) := by
  refine ⟨?_, ?_, ?_⟩
  · cases hs : node.isStatic with
    | true =>
      refine ⟨[], ?_⟩
      have h2 := checkStaticModifier_snd_of_static opt.staticAccessibility node hs false
      simp [checkMethodAccessibilityModifier, h2]
    | false =>
      have h := checkStaticModifier_of_not_static opt.staticAccessibility node hs false
      refine ⟨checkMethodAccessibilityModifier node name opt, ?_⟩
      simp [h]
  · intro hs
    have h2 := checkStaticModifier_snd_of_static opt.staticAccessibility node hs false
    constructor
    · simp [checkMethodAccessibilityModifier, h2]
    · simp [checkPropertyAccessibilityModifier, h2]
  · intro hs
    have h := checkStaticModifier_of_not_static opt.staticAccessibility node hs false
    have hoff := checkStaticModifier_of_not_static .off node hs false
    refine ⟨by simp [h], ?_, ?_⟩
    · simp [checkMethodAccessibilityModifier, h, hoff]
    · simp [checkPropertyAccessibilityModifier, h, hoff]

/-- Witness for `c2_amended` at a concrete static member and a concrete
non-static member. -/
theorem c2_amended_witness :
    checkMethodAccessibilityModifier ⟨true, none, false, .methodK⟩ "m"
        ⟨.off, .noPublicCfg [], .explicitCfg .protectedA [], .explicitCfg .protectedA []⟩ =
      (checkStaticModifier .off ⟨true, none, false, .methodK⟩).1 ∧
      checkMethodAccessibilityModifier ⟨false, none, false, .methodK⟩ "m"
          ⟨.explicit, .noPublicCfg [], .explicitCfg .protectedA [], .explicitCfg .protectedA []⟩ =
        checkMethodAccessibilityModifier ⟨false, none, false, .methodK⟩ "m"
          ⟨.off, .noPublicCfg [], .explicitCfg .protectedA [], .explicitCfg .protectedA []⟩ :=
  ⟨((c2_amended ⟨true, none, false, .methodK⟩ "m"
      ⟨.off, .noPublicCfg [], .explicitCfg .protectedA [], .explicitCfg .protectedA []⟩
      .off).2.1 rfl).1,
    ((c2_amended ⟨false, none, false, .methodK⟩ "m"
      ⟨.explicit, .noPublicCfg [], .explicitCfg .protectedA [], .explicitCfg .protectedA []⟩
      .off).2.2 rfl).2.1⟩

/-! ## Claim C3 -/

theorem c3_shape_static (lvl : StaticAccessibilityLevel) (node : MemberNode)
    (r : EmaReport) (hr : r ∈ (checkStaticModifier lvl node).1) :
    r = ⟨.unwantedPublicAccessibility, some .add⟩ ∨
      r = ⟨.missingAccessibility, some .replace⟩ ∨
      r = ⟨.missingAccessibility, some .remove⟩ := by
  cases hs : node.isStatic <;> cases lvl <;> cases hacc : node.accessibility <;>
    simp [checkStaticModifier, hs, hacc] at hr
  all_goals try simp [hr]
  all_goals (split at hr <;> simp at hr <;> simp [hr])

theorem c3_shape_cat (node : MemberNode) (prop : AccessibilityProp) (name : String)
    (r : EmaReport) (hr : r ∈ checkAccessibilityModifier prop node name) :
    r = ⟨.unwantedPublicAccessibility, some .add⟩ ∨
      r = ⟨.missingAccessibility, some .remove⟩ := by
  cases prop with
  | explicitP fw ign =>
    by_cases hig : ign.contains name <;> cases hacc : node.accessibility <;>
      simp [checkAccessibilityModifier, AccessibilityProp.ignoredNames, hig, hacc] at hr <;>
      simp [hr]
  | noPublicP ign =>
    by_cases hig : ign.contains name <;> cases hacc : node.accessibility <;>
      simp [checkAccessibilityModifier, AccessibilityProp.ignoredNames, hig, hacc] at hr
    all_goals try simp [hr]
    all_goals (obtain ⟨h1, h2, h3⟩ := hr; simp [h3])

/-- Claim C3: `unwantedPublicAccessibility` is emitted exactly on the
add-a-modifier paths (a member lacking a modifier under an `explicit`
policy, static or category), and `missingAccessibility` exactly on the
remove-or-replace paths (any modifier under static `no-accessibility`, a
non-public modifier under static `explicit`, a public modifier under
category `no-public`); accordingly every emitted report pairs
`unwantedPublicAccessibility` with an `add` fix and `missingAccessibility`
with a `remove` or `replace` fix. -/
theorem c3_message_ids (lvl : StaticAccessibilityLevel) (node : MemberNode)
    (prop : AccessibilityProp) (name : String) :
    ((⟨.unwantedPublicAccessibility, some .add⟩ : EmaReport) ∈
        (checkStaticModifier lvl node).1 ↔
      node.isStatic = true ∧ lvl = .explicit ∧ node.accessibility = none) ∧
      ((⟨.missingAccessibility, some .replace⟩ : EmaReport) ∈
          (checkStaticModifier lvl node).1 ↔
        node.isStatic = true ∧ lvl = .explicit ∧
          ∃ a, node.accessibility = some a ∧ a ≠ .publicA) ∧
      ((⟨.missingAccessibility, some .remove⟩ : EmaReport) ∈
          (checkStaticModifier lvl node).1 ↔
        node.isStatic = true ∧ lvl = .noAccessibility ∧ node.accessibility ≠ none) ∧
      ((⟨.unwantedPublicAccessibility, some .add⟩ : EmaReport) ∈
          checkAccessibilityModifier prop node name ↔
        prop.ignoredNames.contains name = false ∧
          (∃ fixWith ign, prop = .explicitP fixWith ign) ∧
          node.accessibility = none) ∧
      ((⟨.missingAccessibility, some .remove⟩ : EmaReport) ∈
          checkAccessibilityModifier prop node name ↔
        prop.ignoredNames.contains name = false ∧
          (∃ ign, prop = .noPublicP ign) ∧
          node.accessibility = some .publicA) ∧
      (∀ r ∈ (checkStaticModifier lvl node).1 ++
          checkAccessibilityModifier prop node name,
        (r.messageId = .unwantedPublicAccessibility ↔ r.fixMode = some .add) ∧
          (r.messageId = .missingAccessibility ↔
            r.fixMode = some .remove ∨ r.fixMode = some .replace)) := by
  refine ⟨?_, ?_, ?_, ?_, ?_, ?_⟩
  · cases hs : node.isStatic <;> cases lvl <;> cases hacc : node.accessibility <;>
        simp [checkStaticModifier, hs, hacc] <;>
      rename_i a <;> by_cases hp : a = Accessibility.publicA <;> simp [hp]
  · cases hs : node.isStatic <;> cases lvl <;> cases hacc : node.accessibility <;>
        simp [checkStaticModifier, hs, hacc] <;>
      rename_i a <;> by_cases hp : a = Accessibility.publicA <;> simp [hp]
  · cases hs : node.isStatic <;> cases lvl <;> cases hacc : node.accessibility <;>
        simp [checkStaticModifier, hs, hacc] <;>
      rename_i a <;> by_cases hp : a = Accessibility.publicA <;> simp [hp]
  · cases prop with
    | explicitP fw ign =>
      by_cases hig : ign.contains name <;> cases hacc : node.accessibility <;>
        simp [checkAccessibilityModifier, AccessibilityProp.ignoredNames, hig, hacc]
    | noPublicP ign =>
      by_cases hig : ign.contains name <;> cases hacc : node.accessibility <;>
        simp [checkAccessibilityModifier, AccessibilityProp.ignoredNames, hig, hacc]
  · cases prop with
    | explicitP fw ign =>
      by_cases hig : ign.contains name <;> cases hacc : node.accessibility <;>
        simp [checkAccessibilityModifier, AccessibilityProp.ignoredNames, hig, hacc]
    | noPublicP ign =>
      by_cases hig : ign.contains name <;> cases hacc : node.accessibility <;>
        simp [checkAccessibilityModifier, AccessibilityProp.ignoredNames, hig, hacc]
  · intro r hr
    rcases List.mem_append.1 hr with h | h
    · rcases c3_shape_static lvl node r h with h1 | h1 | h1 <;> subst h1 <;> simp
    · rcases c3_shape_cat node prop name r h with h1 | h1 <;> subst h1 <;> simp

/-- Witness for `c3_message_ids` at a concrete static member missing its
modifier under the `explicit` static policy. -/
theorem c3_message_ids_witness :
    (⟨.unwantedPublicAccessibility, some .add⟩ : EmaReport) ∈
      (checkStaticModifier .explicit ⟨true, none, false, .methodK⟩).1 :=
  (c3_message_ids .explicit ⟨true, none, false, .methodK⟩
    (.explicitP .protectedA []) "m").1.mpr ⟨rfl, rfl, rfl⟩

/-! ## unused-import

Translated from the unused-import rule module (`isUsedInJsDoc`, `isUsed`,
`checkUnusedImporter`) and `utils.ts` (`isIgnoredName`).  The external
JSDoc regular expression built by `createJsDocPattern` is modelled by the
predicate parameter `jsdocTest text name`, standing for
`createJsDocPattern(name).test(text)`; the compiled `ignoredNames` patterns
are modelled by `IgnoreMatcher`. -/

/-- One entry of `realOption.ignoredNames` after
`(option.ignoredNames || default).map(n => stringToRegExp(n) ?? n)`:
either a plain string (exact match) or a compiled regular expression
(modelled by its test function). -/
inductive IgnoreMatcher where
  | exact (s : String)
  | regex (test : String → Bool)

/-- Source `isIgnoredName` from `utils.ts`. -/
def isIgnoredName (name : String) (ignores : List IgnoreMatcher) : Bool :=
  ignores.any fun pattern =>
    match pattern with
    | .exact s => s = name
    | .regex t => t name

structure ScopeVariable where
  name : String
  referencesCount : Nat
  deriving DecidableEq, Repr

/-- `scope.variables`; the whole scope object may be `null`. -/
abbrev ScopeM := List ScopeVariable

structure CommentM where
  isBlock : Bool
  value : String
  deriving DecidableEq, Repr

structure SourceCodeM where
  comments : List CommentM
  deriving DecidableEq, Repr

/-- Source `isUsedInJsDoc`: some block comment matches the JSDoc reference
pattern for `name`. -/
def isUsedInJsDoc (jsdocTest : String → String → Bool) (sourceCode : SourceCodeM)
    (name : String) : Bool :=
  sourceCode.comments.any fun comment => comment.isBlock && jsdocTest comment.value name

/-- Source `isUsed`: an import binding is used when its host-scope variable
has at least one reference, otherwise (unless `ignoreJSDoc`) when a JSDoc
block comment references the name. -/
def importIsUsed (jsdocTest : String → String → Bool) (scope : Option ScopeM)
    (name : String) (sourceCode : SourceCodeM) (ignoreJSDoc : Bool) : Bool :=
  let foundVar := scope.bind fun vars => vars.find? fun v => v.name = name
  if (match foundVar with
      | some v => decide (0 < v.referencesCount)
      | none => false) then true
  else if ignoreJSDoc then false
  else isUsedInJsDoc jsdocTest sourceCode name

inductive ImpSpecKind where
  | named
  | defaultK
  | namespaceK
  deriving DecidableEq, Repr

structure ImportSpecifierM where
  kind : ImpSpecKind
  localName : String
  deriving DecidableEq, Repr

structure ImportDeclarationM where
  specifiers : List ImportSpecifierM
  deriving DecidableEq, Repr

/-- `IMPORT_AST_TYPES`: the three specifier node types the rule checks. -/
def IMPORT_AST_TYPES : List ImpSpecKind := [.named, .defaultK, .namespaceK]

inductive UnusedImportMessageId where
  | unusedSingleImport
  | unusedAllImport
  deriving DecidableEq, Repr

/-- The node a diagnostic is attached to: the whole declaration or one
specifier. -/
inductive ImportReportTarget where
  | decl
  | spec (s : ImportSpecifierM)
  deriving DecidableEq, Repr

structure ImportReport where
  messageId : UnusedImportMessageId
  target : ImportReportTarget
  hasFix : Bool
  deriving DecidableEq, Repr

structure ImportReportOptions where
  autoFix : Bool
  ignoredNames : List IgnoreMatcher
  ignoreJSDoc : Bool

/-- The predicate of the `specifiers.filter` in the source
`checkUnusedImporter`: a specifier is kept (as unused) when it is one of
the three specifier node types, its local name is not ignored, and
`isUsed` is false. -/
def unusedSpecPred (jsdocTest : String → String → Bool) (scope : Option ScopeM)
    (sourceCode : SourceCodeM) (options : ImportReportOptions)
    (specifier : ImportSpecifierM) : Bool :=
  if !(IMPORT_AST_TYPES.contains specifier.kind) then false
  else if isIgnoredName specifier.localName options.ignoredNames then false
  else !(importIsUsed jsdocTest scope specifier.localName sourceCode options.ignoreJSDoc)

/-- Source `checkUnusedImporter`: filters the unused, non-ignored
specifiers and reports either one whole-declaration diagnostic (all
specifiers unused) or one diagnostic per unused specifier.  The
`buildRemoveImportFix`/`buildRemoveSpecifierFix` fixers are `null` exactly
when `autoFix` is off, modelled by `hasFix`. -/
def checkUnusedImporter (jsdocTest : String → String → Bool)
    (scope : Option ScopeM) (node : ImportDeclarationM)
    (sourceCode : SourceCodeM) (options : ImportReportOptions) :
    List ImportReport :=
  let specifiers := node.specifiers
  if specifiers.length < 1 then []
  else
    let unusedSpecifiers :=
      specifiers.filter (unusedSpecPred jsdocTest scope sourceCode options)
    if unusedSpecifiers.length < 1 then []
    else if unusedSpecifiers.length = specifiers.length then
      [⟨.unusedAllImport, .decl, options.autoFix⟩]
    else
      unusedSpecifiers.map fun specifier =>
        ⟨.unusedSingleImport, .spec specifier, options.autoFix⟩

/-! ## unused-variable: the unused-binding filter -/

/-- The init expression kinds distinguished by `FUNC_EXPRESSION_TYPES`. -/
inductive InitKind where
  | functionExpr
  | arrowFunctionExpr
  | callExpr
  | awaitExpr
  | otherInit
  deriving DecidableEq, Repr

def FUNC_EXPRESSION_TYPES : List InitKind :=
  [.functionExpr, .arrowFunctionExpr, .callExpr, .awaitExpr]

/-- Source `isNotFuncExpression` specialised to a `VariableDeclarator`
with optional init of kind `initKind` (`none` = no initializer). -/
def isNotFuncExprDecl (initKind : Option InitKind) : Bool :=
  match initKind with
  | none => true
  | some k => !(FUNC_EXPRESSION_TYPES.contains k)

/-- One node on the parent chain above a binding identifier, restricted to
the node kinds the filter loop of the unused-variable rule inspects. -/
inductive VarAncestor where
  | objectPattern
  | arrayPattern
  | varDeclarator (initKind : Option InitKind)
  | otherNode
  deriving DecidableEq, Repr

/-- The `while (current)` walk in the source `unusedVars` filter: a pattern
node stops the walk keeping the variable as a candidate (the
`inDestructuring` flag is set immediately before `break`, so the
declarator branch always sees it `false`); a declarator with a
function-like init drops the candidate when `ignoreFunction` is on. -/
def destructuringWalk (ignoreFunction : Bool) : List VarAncestor → Bool
  | [] => true
  | .objectPattern :: _ => true
  | .arrayPattern :: _ => true
  | .varDeclarator initKind :: _ =>
    if !(isNotFuncExprDecl initKind) then
      if ignoreFunction then false else true
    else true
  | .otherNode :: rest => destructuringWalk ignoreFunction rest

structure DeclaredVariable where
  name : String
  referencesCount : Nat
  /-- `variable.identifiers[0]`: `none` when absent, otherwise the parent
  chain above the identifier. -/
  identifierAncestors : Option (List VarAncestor)

structure VarReportOptions where
  autoFix : Bool
  ignoredNames : List IgnoreMatcher
  ignoreFunction : Bool

/-- The predicate of the `variables.filter` in the unused-variable rule's
`create`: keeps a declared variable as an unused-variable candidate. -/
def isUnusedVariableCandidate (options : VarReportOptions)
    (declared : DeclaredVariable) : Bool :=
  if isIgnoredName declared.name options.ignoredNames then false
  else if 1 < declared.referencesCount then false
  else
    match declared.identifierAncestors with
    | none => true
    | some ancestors => destructuringWalk options.ignoreFunction ancestors

theorem filter_length_eq_all {α : Type} (p : α → Bool) (l : List α)
    (h : (l.filter p).length = l.length) : ∀ a ∈ l, p a = true := by
  induction l with
  | nil => simp
  | cons x t ih =>
    by_cases hx : p x = true
    · intro a ha
      rw [List.mem_cons] at ha
      rcases ha with rfl | ha
      · exact hx
      · refine ih ?_ a ha
        simpa [List.filter_cons, hx] using h
    · exfalso
      have hle := List.length_filter_le p t
      simp [List.filter_cons, hx] at h
      omega

theorem importKind_checked (k : ImpSpecKind) :
    IMPORT_AST_TYPES.contains k = true := by
  cases k <;> decide

theorem importIsUsed_no_refs (jt : String → String → Bool)
    (scope : Option ScopeM) (name : String) (sourceCode : SourceCodeM)
    (ij : Bool)
    (hrefs : ∀ v, (scope.bind fun vars => vars.find? fun x => x.name = name) = some v →
      v.referencesCount = 0) :
    importIsUsed jt scope name sourceCode ij =
      if ij then false else isUsedInJsDoc jt sourceCode name := by
  unfold importIsUsed
  cases hv : scope.bind (fun vars => vars.find? fun x => x.name = name) with
  | none => simp [hv]
  | some v =>
    have h0 := hrefs v hv
    simp [hv, h0]

/-! ## Claim C10 -/

/-- Claim C10: an import declaration with zero specifiers (a pure
side-effect import) produces no diagnostic and therefore no fix, under
every options configuration, scope and comment set. -/
theorem c10_side_effect_import (jt : String → String → Bool)
    (scope : Option ScopeM) (node : ImportDeclarationM)
    (sourceCode : SourceCodeM) (opts : ImportReportOptions)
    (h : node.specifiers = []) :
    checkUnusedImporter jt scope node sourceCode opts = [] := by
  simp [checkUnusedImporter, h]

/-- Witness for `c10_side_effect_import`. -/
theorem c10_side_effect_import_witness :
    (⟨[]⟩ : ImportDeclarationM).specifiers = [] ∧
      checkUnusedImporter (fun _ _ => false) (some []) ⟨[]⟩ ⟨[]⟩
        ⟨true, [], true⟩ = [] :=
  ⟨rfl, c10_side_effect_import (fun _ _ => false) (some []) ⟨[]⟩ ⟨[]⟩
    ⟨true, [], true⟩ rfl⟩

/-! ## Claim C6 -/

/-- Claim C6: for an import specifier whose host-scope variable has zero
references (or is absent) and whose local name matches no `ignoredNames`
pattern: with `ignoreJSDoc: false`, if some block comment matches the JSDoc
reference pattern for that name, the specifier counts as used and no
diagnostic concerns it (no whole-declaration report is emitted and no
single-specifier report targets it); with `ignoreJSDoc: true` the same
specifier is reported as unused — by the whole-declaration diagnostic or by
its own single-specifier diagnostic — regardless of any JSDoc reference. -/
theorem c6_ignore_jsdoc (jt : String → String → Bool) (scope : Option ScopeM)
    (node : ImportDeclarationM) (sourceCode : SourceCodeM)
    (opts : ImportReportOptions) (s : ImportSpecifierM)
    (hmem : s ∈ node.specifiers)
    (hrefs : ∀ v, (scope.bind fun vars => vars.find? fun x => x.name = s.localName) = some v →
      v.referencesCount = 0)
    (hign : isIgnoredName s.localName opts.ignoredNames = false) :
    (opts.ignoreJSDoc = false →
      (∃ c ∈ sourceCode.comments, c.isBlock = true ∧ jt c.value s.localName = true) →
      importIsUsed jt scope s.localName sourceCode opts.ignoreJSDoc = true ∧
        ∀ r ∈ checkUnusedImporter jt scope node sourceCode opts,
          r.messageId ≠ .unusedAllImport ∧ r.target ≠ .spec s) ∧
      (opts.ignoreJSDoc = true →
        ∃ r ∈ checkUnusedImporter jt scope node sourceCode opts,
          r.messageId = .unusedAllImport ∨
            (r.messageId = .unusedSingleImport ∧ r.target = .spec s)) := by
  constructor
  · intro hij hex
    have hused : importIsUsed jt scope s.localName sourceCode opts.ignoreJSDoc = true := by
      rw [hij, importIsUsed_no_refs jt scope _ sourceCode false hrefs]
      simp only [if_neg Bool.false_ne_true, isUsedInJsDoc, List.any_eq_true]
      obtain ⟨c, hc, hcb, hct⟩ := hex
      exact ⟨c, hc, by simp [hcb, hct]⟩
    refine ⟨hused, ?_⟩
    have hps : unusedSpecPred jt scope sourceCode opts s = false := by
      simp [unusedSpecPred, importKind_checked, hign, hused]
    intro r hr
    simp only [checkUnusedImporter] at hr
    split at hr
    · simp at hr
    · split at hr
      · simp at hr
      · split at hr
        · rename_i hlen1 hlen2 hall
          exfalso
          have := filter_length_eq_all _ _ hall s hmem
          rw [hps] at this
          exact Bool.false_ne_true this
        · rw [List.mem_map] at hr
          obtain ⟨x, hx, rfl⟩ := hr
          have hpx := List.of_mem_filter hx
          constructor
          · simp
          · simp only [ne_eq, ImportReportTarget.spec.injEq]
            intro hxs
            rw [hxs] at hpx
            rw [hps] at hpx
            exact Bool.false_ne_true hpx
  · intro hij
    have hunused : unusedSpecPred jt scope sourceCode opts s = true := by
      have hu : importIsUsed jt scope s.localName sourceCode opts.ignoreJSDoc = false := by
        rw [hij, importIsUsed_no_refs jt scope _ sourceCode true hrefs]
        simp
      have hkind : s.kind ∈ IMPORT_AST_TYPES := by cases s.kind <;> simp [IMPORT_AST_TYPES]
      simp [unusedSpecPred, hign, hu, hkind]
    have hmemf : s ∈ node.specifiers.filter (unusedSpecPred jt scope sourceCode opts) :=
      List.mem_filter.2 ⟨hmem, hunused⟩
    have hlen : ¬ node.specifiers.length < 1 := by
      have : 0 < node.specifiers.length :=
        List.length_pos.2 (fun h => by rw [h] at hmem; simp at hmem)
      omega
    have hlenf : ¬ (node.specifiers.filter (unusedSpecPred jt scope sourceCode opts)).length < 1 := by
      have : 0 < (node.specifiers.filter (unusedSpecPred jt scope sourceCode opts)).length :=
        List.length_pos.2 (fun h => by rw [h] at hmemf; simp at hmemf)
      omega
    simp only [checkUnusedImporter, if_neg hlen, if_neg hlenf]
    split
    · exact ⟨⟨.unusedAllImport, .decl, opts.autoFix⟩, by simp, Or.inl rfl⟩
    · refine ⟨⟨.unusedSingleImport, .spec s, opts.autoFix⟩, ?_, Or.inr ⟨rfl, rfl⟩⟩
      rw [List.mem_map]
      exact ⟨s, hmemf, rfl⟩

/-- Witness for `c6_ignore_jsdoc`: the import of `Foo` with zero scope
references and a matching `@see Foo` block comment is kept under
`ignoreJSDoc: false` and reported under `ignoreJSDoc: true`. -/
theorem c6_ignore_jsdoc_witness :
    ((⟨.named, "Foo"⟩ : ImportSpecifierM) ∈
        (⟨[⟨.named, "Foo"⟩]⟩ : ImportDeclarationM).specifiers) ∧
      (importIsUsed (fun text name => text = "* @see Foo " && name = "Foo")
          (some []) "Foo" ⟨[⟨true, "* @see Foo "⟩]⟩ false = true ∧
        ∀ r ∈ checkUnusedImporter (fun text name => text = "* @see Foo " && name = "Foo")
            (some []) ⟨[⟨.named, "Foo"⟩]⟩ ⟨[⟨true, "* @see Foo "⟩]⟩ ⟨true, [], false⟩,
          r.messageId ≠ .unusedAllImport ∧ r.target ≠ .spec ⟨.named, "Foo"⟩) ∧
      (∃ r ∈ checkUnusedImporter (fun text name => text = "* @see Foo " && name = "Foo")
          (some []) ⟨[⟨.named, "Foo"⟩]⟩ ⟨[⟨true, "* @see Foo "⟩]⟩ ⟨true, [], true⟩,
        r.messageId = .unusedAllImport ∨
          (r.messageId = .unusedSingleImport ∧ r.target = .spec ⟨.named, "Foo"⟩)) := by
  refine ⟨by decide, ?_, ?_⟩
  · exact (c6_ignore_jsdoc (fun text name => text = "* @see Foo " && name = "Foo")
      (some []) ⟨[⟨.named, "Foo"⟩]⟩ ⟨[⟨true, "* @see Foo "⟩]⟩ ⟨true, [], false⟩
      ⟨.named, "Foo"⟩ (by decide) (fun v h => Option.noConfusion h) (by decide)).1
      rfl ⟨⟨true, "* @see Foo "⟩, by decide, rfl, by decide⟩
  · exact (c6_ignore_jsdoc (fun text name => text = "* @see Foo " && name = "Foo")
      (some []) ⟨[⟨.named, "Foo"⟩]⟩ ⟨[⟨true, "* @see Foo "⟩]⟩ ⟨true, [], true⟩
      ⟨.named, "Foo"⟩ (by decide) (fun v h => Option.noConfusion h) (by decide)).2
      rfl

/-! ## Claim C5 -/

/-- Claim C5, counterexample: a binding whose host-scope variable has ZERO
references still counts as used by the unused-import rule when
`ignoreJSDoc` is false and a block comment matches the JSDoc pattern, so
"used exactly when the reference count is greater than 0" is false as
stated. -/
theorem c5_counterexample :
    importIsUsed (fun text name => text = "* @see Foo " && name = "Foo")
        (some [⟨"Foo", 0⟩]) "Foo" ⟨[⟨true, "* @see Foo "⟩]⟩ false = true ∧
      (⟨"Foo", 0⟩ : ScopeVariable).referencesCount = 0 :=
  ⟨by decide, rfl⟩

/-- Claim C5 (amended): with `ignoreJSDoc` true (the default) unused-import
classifies a binding whose host-scope variable is found as used exactly
when its reference count is greater than 0; unused-variable keeps a
declared variable as unused exactly when its reference count is at most 1,
provided its name is not ignored and the destructuring/function walk keeps
it; hence at exactly one recorded reference the two rules disagree — the
binding counts as used for imports (under either `ignoreJSDoc` setting,
since the reference count short-circuits) and unused for variables. -/
theorem c5_reference_thresholds (jt : String → String → Bool)
    (scope : Option ScopeM) (name : String) (sourceCode : SourceCodeM)
    (v : ScopeVariable)
    (hfind : (scope.bind fun vars => vars.find? fun x => x.name = name) = some v)
    (ij : Bool) (vopts : VarReportOptions) (declared : DeclaredVariable)
    (hignV : isIgnoredName declared.name vopts.ignoredNames = false)
    (hwalk : ∀ anc, declared.identifierAncestors = some anc →
      destructuringWalk vopts.ignoreFunction anc = true) :
    (importIsUsed jt scope name sourceCode true = decide (0 < v.referencesCount)) ∧
      (isUnusedVariableCandidate vopts declared = decide (declared.referencesCount ≤ 1)) ∧
      (v.referencesCount = 1 → importIsUsed jt scope name sourceCode ij = true) ∧
      (declared.referencesCount = 1 → isUnusedVariableCandidate vopts declared = true) := by
  have hb : isUnusedVariableCandidate vopts declared =
      decide (declared.referencesCount ≤ 1) := by
    by_cases h1 : 1 < declared.referencesCount
    · simp [isUnusedVariableCandidate, hignV, h1, Nat.not_le.2 h1]
    · have hle : declared.referencesCount ≤ 1 := Nat.not_lt.1 h1
      cases hanc : declared.identifierAncestors with
      | none => simp [isUnusedVariableCandidate, hignV, h1, hanc, hle]
      | some anc =>
        have := hwalk anc hanc
        simp [isUnusedVariableCandidate, hignV, h1, hanc, this, hle]
  refine ⟨?_, hb, ?_, ?_⟩
  · by_cases h : 0 < v.referencesCount <;> simp [importIsUsed, hfind, h]
  · intro h1
    simp [importIsUsed, hfind, h1]
  · intro h1
    rw [hb, h1]
    simp

/-- Witness for `c5_reference_thresholds`: a binding named `n` with exactly
one recorded reference is used for unused-import and an unused candidate
for unused-variable. -/
theorem c5_reference_thresholds_witness :
    ((some [(⟨"n", 1⟩ : ScopeVariable)]).bind fun vars =>
        vars.find? fun x => x.name = "n") = some ⟨"n", 1⟩ ∧
      importIsUsed (fun _ _ => false) (some [⟨"n", 1⟩]) "n" ⟨[]⟩ false = true ∧
      isUnusedVariableCandidate ⟨true, [], true⟩ ⟨"n", 1, none⟩ = true := by
  have h := c5_reference_thresholds (fun _ _ => false) (some [⟨"n", 1⟩]) "n" ⟨[]⟩
    ⟨"n", 1⟩ (by decide) false ⟨true, [], true⟩ ⟨"n", 1, none⟩ (by decide)
    (fun anc h => Option.noConfusion h)
  exact ⟨by decide, h.2.2.1 rfl, h.2.2.2 rfl⟩

/-! ## upgrade-version script

Translated from `scripts/upgrade-version.js`.  A `package.json` manifest is
modelled by its `version` field and its `dependencies` map (the other
copied metadata fields play no role in the claim); the file system is
modelled by the three optional manifests (`none` = `readPackageJson`
returned `null`, i.e. the file was unreadable or unparsable).  `semver.inc
(current, 'patch')` is the external semver library, modelled by the
`incPatch` parameter.  Each `.error` value stands for a `console.error`
message followed by `process.exit(1)`. -/

structure Manifest where
  version : Option String
  dependencies : List (String × String)
  deriving DecidableEq, Repr

structure UpgradeCliOptions where
  pkg : String
  version : String
  deriving DecidableEq, Repr

/-- The argument loop of the script: `-p <value>` and `-v <value>` set the
two options (a trailing flag with no value is ignored); everything else is
skipped. -/
def parseUpgradeArgs : List String → UpgradeCliOptions → UpgradeCliOptions
  | [], o => o
  | "-p" :: v :: rest, o => parseUpgradeArgs rest { o with pkg := v }
  | "-v" :: v :: rest, o => parseUpgradeArgs rest { o with version := v }
  | _ :: rest, o => parseUpgradeArgs rest o

inductive UpgradeError where
  | missingPackageFlag
  | invalidSelector (s : String)
  | unreadableManifest
  | unreadableRoot
  | noVersionField
  | unreadableRuleManifest
  deriving DecidableEq, Repr

structure UpgradeOutcome where
  pkg : String
  oldVersion : String
  newVersion : String
  manifest : Manifest
  deriving DecidableEq, Repr

/-- `packageJson.dependencies['eslint-plugin-jshow'] = value`: assignment
of `undefined` (`none`) models the key being dropped by
`JSON.stringify`. -/
def setDependency (deps : List (String × String)) (key : String)
    (value : Option String) : List (String × String) :=
  match value with
  | some v => (deps.filter fun p => p.1 ≠ key) ++ [(key, v)]
  | none => deps.filter fun p => p.1 ≠ key

def lookupDep (deps : List (String × String)) (key : String) : Option String :=
  (deps.find? fun p => p.1 = key).map (fun p => p.2)

/-- The main flow of `upgrade-version.js`: parse `-p`/`-v`, validate the
selector, read the selected and root manifests, require a `version` field,
compute the new version (`-v` value or patch increment), and for the config
package pin the rule-package dependency to the rule manifest's own current
version. -/
def upgradeVersion (args : List String)
    (configManifest ruleManifest rootManifest : Option Manifest)
    (incPatch : String → String) : Except UpgradeError UpgradeOutcome :=
  let o := parseUpgradeArgs args ⟨"", ""⟩
  if o.pkg = "" then .error .missingPackageFlag
  else if ¬(o.pkg = "config" ∨ o.pkg = "rule") then .error (.invalidSelector o.pkg)
  else
    match (if o.pkg = "config" then configManifest else ruleManifest) with
    | none => .error .unreadableManifest
    | some packageJson =>
      match rootManifest with
      | none => .error .unreadableRoot
      | some _ =>
        match packageJson.version with
        | none => .error .noVersionField
        | some currentVersion =>
          let newVersion := if o.version ≠ "" then o.version else incPatch currentVersion
          if o.pkg = "config" then
            match ruleManifest with
            | none => .error .unreadableRuleManifest
            | some ruleJson =>
              .ok ⟨o.pkg, currentVersion, newVersion,
                ⟨some newVersion,
                  setDependency packageJson.dependencies "eslint-plugin-jshow"
                    ruleJson.version⟩⟩
          else
            .ok ⟨o.pkg, currentVersion, newVersion,
              ⟨some newVersion, packageJson.dependencies⟩⟩

theorem lookupDep_setDependency (deps : List (String × String)) (key v : String) :
    lookupDep (setDependency deps key (some v)) key = some v := by
  unfold lookupDep setDependency
  have hnone : (deps.filter fun p => p.1 ≠ key).find? (fun p => p.1 = key) = none := by
    rw [List.find?_eq_none]
    intro x hx
    have := List.of_mem_filter hx
    simpa using this
  rw [List.find?_append, hnone]
  simp

/-! ## Claim C9 -/

/-- Claim C9: the version-bump script uses the explicit `-v` value when one
is given (non-empty) and the patch-incremented current version otherwise;
when bumping the config package it pins the `eslint-plugin-jshow`
dependency to the rule package's current manifest version; and it exits
with an error (non-zero status plus message) on a missing `-p` flag, an
unrecognized selector, an unreadable manifest (selected, root or — in the
config case — rule), or a manifest without a `version` field. -/
theorem c9_upgrade_version (args : List String)
    (configManifest ruleManifest rootManifest : Option Manifest)
    (incPatch : String → String) (o : UpgradeCliOptions)
    (ho : parseUpgradeArgs args ⟨"", ""⟩ = o) :
    (o.pkg = "" →
      upgradeVersion args configManifest ruleManifest rootManifest incPatch =
        .error .missingPackageFlag) ∧
    (o.pkg ≠ "config" → o.pkg ≠ "rule" → o.pkg ≠ "" →
      upgradeVersion args configManifest ruleManifest rootManifest incPatch =
        .error (.invalidSelector o.pkg)) ∧
    ((o.pkg = "config" ∨ o.pkg = "rule") →
      (if o.pkg = "config" then configManifest else ruleManifest) = none →
      upgradeVersion args configManifest ruleManifest rootManifest incPatch =
        .error .unreadableManifest) ∧
    (∀ pkgJson, (o.pkg = "config" ∨ o.pkg = "rule") →
      (if o.pkg = "config" then configManifest else ruleManifest) = some pkgJson →
      (rootManifest = none →
        upgradeVersion args configManifest ruleManifest rootManifest incPatch =
          .error .unreadableRoot) ∧
      (∀ rootJson, rootManifest = some rootJson → pkgJson.version = none →
        upgradeVersion args configManifest ruleManifest rootManifest incPatch =
          .error .noVersionField)) ∧
    (∀ pkgJson rootJson cur, o.pkg = "rule" → ruleManifest = some pkgJson →
      rootManifest = some rootJson → pkgJson.version = some cur →
      upgradeVersion args configManifest ruleManifest rootManifest incPatch =
        .ok ⟨"rule", cur, if o.version ≠ "" then o.version else incPatch cur,
          ⟨some (if o.version ≠ "" then o.version else incPatch cur),
            pkgJson.dependencies⟩⟩) ∧
    (∀ pkgJson rootJson cur, o.pkg = "config" → configManifest = some pkgJson →
      rootManifest = some rootJson → pkgJson.version = some cur →
      (ruleManifest = none →
        upgradeVersion args configManifest ruleManifest rootManifest incPatch =
          .error .unreadableRuleManifest) ∧
      (∀ ruleJson, ruleManifest = some ruleJson →
        upgradeVersion args configManifest ruleManifest rootManifest incPatch =
          .ok ⟨"config", cur, if o.version ≠ "" then o.version else incPatch cur,
            ⟨some (if o.version ≠ "" then o.version else incPatch cur),
              setDependency pkgJson.dependencies "eslint-plugin-jshow"
                ruleJson.version⟩⟩ ∧
        (∀ rv, ruleJson.version = some rv →
          lookupDep (setDependency pkgJson.dependencies "eslint-plugin-jshow"
            ruleJson.version) "eslint-plugin-jshow" = some rv))) := by
  refine ⟨?_, ?_, ?_, ?_, ?_, ?_⟩
  · intro h
    simp [upgradeVersion, ho, h]
  · intro h1 h2 h3
    simp [upgradeVersion, ho, h1, h2, h3]
  · rintro hsel hnone
    rcases hsel with h | h <;> simp [upgradeVersion, ho, h] at hnone ⊢ <;> simp [hnone]
  · intro pkgJson hsel hsome
    constructor
    · intro hroot
      rcases hsel with h | h <;> simp [upgradeVersion, ho, h] at hsome ⊢ <;>
        simp [hsome, hroot]
    · intro rootJson hroot hver
      rcases hsel with h | h <;> simp [upgradeVersion, ho, h] at hsome ⊢ <;>
        simp [hsome, hroot, hver]
  · intro pkgJson rootJson cur hr hrule hroot hver
    simp [upgradeVersion, ho, hr, hrule, hroot, hver]
  · intro pkgJson rootJson cur hc hconf hroot hver
    constructor
    · intro hrule
      simp [upgradeVersion, ho, hc, hconf, hroot, hver, hrule]
    · intro ruleJson hrule
      refine ⟨by simp [upgradeVersion, ho, hc, hconf, hroot, hver, hrule], ?_⟩
      intro rv hrv
      rw [hrv]
      exact lookupDep_setDependency pkgJson.dependencies "eslint-plugin-jshow" rv

/-- Witness for `c9_upgrade_version`: bumping the config package with an
explicit `-v 2.0.0` from version 1.0.0 pins the rule dependency to the
rule manifest's version 1.4.2, and a missing `-p` fails. -/
theorem c9_upgrade_version_witness :
    upgradeVersion ["-p", "config", "-v", "2.0.0"]
        (some ⟨some "1.0.0", [("eslint-plugin-jshow", "0.9.0")]⟩)
        (some ⟨some "1.4.2", []⟩) (some ⟨some "9.9.9", []⟩)
        (fun _ => "1.0.1") =
      .ok ⟨"config", "1.0.0", "2.0.0",
        ⟨some "2.0.0",
          setDependency [("eslint-plugin-jshow", "0.9.0")] "eslint-plugin-jshow"
            (some "1.4.2")⟩⟩ ∧
      lookupDep (setDependency [("eslint-plugin-jshow", "0.9.0")]
        "eslint-plugin-jshow" (some "1.4.2")) "eslint-plugin-jshow" = some "1.4.2" ∧
      upgradeVersion [] (some ⟨some "1.0.0", []⟩) none none (fun _ => "1.0.1") =
        .error .missingPackageFlag := by
  have h := c9_upgrade_version ["-p", "config", "-v", "2.0.0"]
    (some ⟨some "1.0.0", [("eslint-plugin-jshow", "0.9.0")]⟩)
    (some ⟨some "1.4.2", []⟩) (some ⟨some "9.9.9", []⟩) (fun _ => "1.0.1")
    ⟨"config", "2.0.0"⟩ (by decide)
  have h2 := (h.2.2.2.2.2 ⟨some "1.0.0", [("eslint-plugin-jshow", "0.9.0")]⟩
    ⟨some "9.9.9", []⟩ "1.0.0" rfl rfl rfl rfl).2 ⟨some "1.4.2", []⟩ rfl
  have h0 := c9_upgrade_version [] (some ⟨some "1.0.0", []⟩) none none
    (fun _ => "1.0.1") ⟨"", ""⟩ rfl
  refine ⟨by simpa using h2.1, h2.2 "1.4.2" rfl, h0.1 rfl⟩

/-! ## sort-export

Translated from `sort-export.ts` (`canMerge`, `buildMergedExportText` and
its helpers).  An export specifier carries its local and exported names; a
sortable export node is a named re-export (with optional module specifier,
the raw text of its source literal, and the raw statement text used on the
fallback paths) or a star export.  `String.prototype.localeCompare` is
modelled by codepoint order; the global regex replace
`specifiersText.replace(/\btype /gu, '')` is modelled by the explicit
scanner `stripTypeAux` (left-to-right, non-overlapping matches of the
literal `type ` at a word boundary, exactly the semantics of a global
regex replace). -/


def isWordChar (c : Char) : Bool := c.isAlphanum || c = '_'

def stripTypeAux (prevWord : Bool) (l : List Char) : List Char :=
  if h : l.take 5 = ['t', 'y', 'p', 'e', ' '] ∧ prevWord = false then
    stripTypeAux false (l.drop 5)
  else
    match l with
    | [] => []
    | c :: rest => c :: stripTypeAux (isWordChar c) rest
termination_by l.length
decreasing_by
  · have h5 : 5 ≤ l.length := by
      have := congrArg List.length h.1
      simp at this
      omega
    simp
    omega
  · simp

theorem stripTypeAux_nil (p : Bool) : stripTypeAux p [] = [] := by
  rw [stripTypeAux]
  simp

theorem stripTypeAux_match (rest : List Char) :
    stripTypeAux false ('t' :: 'y' :: 'p' :: 'e' :: ' ' :: rest) =
      stripTypeAux false rest := by
  rw [stripTypeAux]
  simp [List.take, List.drop]

theorem stripTypeAux_no_space (n : List Char) (hn : ' ' ∉ n) (p : Bool) :
    stripTypeAux p n = n := by
  induction n generalizing p with
  | nil => exact stripTypeAux_nil p
  | cons c n' ih =>
    have hnotpat : ¬((c :: n').take 5 = ['t', 'y', 'p', 'e', ' '] ∧ p = false) := by
      rintro ⟨hA, -⟩
      rcases n' with _ | ⟨a, _ | ⟨b, _ | ⟨c2, _ | ⟨d, t'⟩⟩⟩⟩ <;> simp at hA
      obtain ⟨-, -, -, -, h5⟩ := hA
      exact hn (by simp [h5])
    rw [stripTypeAux, dif_neg hnotpat]
    have hn' : ' ' ∉ n' := fun h => hn (List.mem_cons_of_mem _ h)
    show c :: stripTypeAux (isWordChar c) n' = c :: n'
    rw [ih hn']

theorem stripTypeAux_append_sep (n : List Char) (hn : ' ' ∉ n) (p : Bool)
    (rest : List Char) :
    stripTypeAux p (n ++ ',' :: ' ' :: rest) =
      n ++ ',' :: ' ' :: stripTypeAux false rest := by
  induction n generalizing p with
  | nil =>
    have h1 : ¬(((',' :: ' ' :: rest) : List Char).take 5 = ['t', 'y', 'p', 'e', ' '] ∧ p = false) := by
      rintro ⟨hA, -⟩
      simp at hA
    rw [List.nil_append, stripTypeAux, dif_neg h1]
    show (',' : Char) :: stripTypeAux (isWordChar ',') (' ' :: rest) = _
    rw [show isWordChar ',' = false by decide]
    have h2 : ¬(((' ' :: rest) : List Char).take 5 = ['t', 'y', 'p', 'e', ' '] ∧
        (false : Bool) = false) := by
      rintro ⟨hA, -⟩
      simp at hA
    rw [stripTypeAux, dif_neg h2]
    show (',' : Char) :: ' ' :: stripTypeAux (isWordChar ' ') rest = _
    rw [show isWordChar ' ' = false by decide]
    simp
  | cons c n' ih =>
    have hnotpat : ¬((c :: (n' ++ ',' :: ' ' :: rest)).take 5 = ['t', 'y', 'p', 'e', ' '] ∧
        p = false) := by
      rintro ⟨hA, -⟩
      rcases n' with _ | ⟨a, _ | ⟨b, _ | ⟨c2, _ | ⟨d, t'⟩⟩⟩⟩ <;> simp at hA
      obtain ⟨-, -, -, -, h5⟩ := hA
      exact hn (by simp [h5])
    rw [List.cons_append, stripTypeAux, dif_neg hnotpat]
    have hn' : ' ' ∉ n' := fun h => hn (List.mem_cons_of_mem _ h)
    show c :: stripTypeAux (isWordChar c) (n' ++ ',' :: ' ' :: rest) = _
    rw [ih hn']
    simp


def stripTypeMarks (s : String) : String := ⟨stripTypeAux false s.data⟩

theorem stripTypeMarks_join (names : List String)
    (h : ∀ n ∈ names, ' ' ∉ n.data) :
    stripTypeMarks (joinSep ", " (names.map fun n => "type " ++ n)) =
      joinSep ", " names := by
  have key : stripTypeAux false (joinSep ", " (names.map fun n => "type " ++ n)).data =
      (joinSep ", " names).data := by
    induction names with
    | nil => simp [joinSep, stripTypeAux_nil]
    | cons n t ih =>
      cases t with
      | nil =>
        have hn := h n (by simp)
        simp only [List.map, joinSep]
        rw [show (("type " ++ n : String)).data = 't' :: 'y' :: 'p' :: 'e' :: ' ' :: n.data by
          rw [String.data_append]; rfl]
        rw [stripTypeAux_match, stripTypeAux_no_space n.data hn]
      | cons m t' =>
        have hn := h n (by simp)
        have hrest : ∀ x ∈ m :: t', ' ' ∉ x.data := fun x hx => h x (by simp [hx])
        have ih' := ih hrest
        simp only [List.map, joinSep] at ih' ⊢
        rw [show (("type " ++ n ++ ", " ++
              joinSep ", " (("type " ++ m) :: t'.map fun x => "type " ++ x) : String)).data =
            't' :: 'y' :: 'p' :: 'e' :: ' ' :: (n.data ++ ',' :: ' ' ::
              (joinSep ", " (("type " ++ m) :: t'.map fun x => "type " ++ x)).data) by
          rw [String.data_append, String.data_append, String.data_append]
          simp]
        rw [stripTypeAux_match, stripTypeAux_append_sep n.data hn, ih']
        rw [String.data_append, String.data_append]
        simp
  exact String.ext key


structure ExpSpecifier where
  localName : String
  exportedName : String
  deriving DecidableEq, Repr

inductive SortableExportNode where
  | namedE (isType : Bool) (specifiers : List ExpSpecifier) (source : Option String)
      (sourceRaw : String) (raw : String)
  | allE (isType : Bool) (source : Option String) (raw : String)
  deriving DecidableEq, Repr

def nodeRaw : SortableExportNode → String
  | .namedE _ _ _ _ raw => raw
  | .allE _ _ raw => raw

def canMerge (a b : SortableExportNode) : Bool :=
  match a, b with
  | .namedE _ _ (some sa) _ _, .namedE _ _ (some sb) _ _ => sa = sb
  | _, _ => false

inductive SortOrder where
  | asc
  | desc
  deriving DecidableEq, Repr

def pushUniqueExp (l : List ExpSpecifier) (s : ExpSpecifier) : List ExpSpecifier :=
  if l.any fun e => e.exportedName = s.exportedName then l else l ++ [s]

def collectNodeSpecs (acc : List ExpSpecifier × List ExpSpecifier) (isType : Bool)
    (specs : List ExpSpecifier) : List ExpSpecifier × List ExpSpecifier :=
  specs.foldl
    (fun tv spec =>
      if isType then (pushUniqueExp tv.1 spec, tv.2) else (tv.1, pushUniqueExp tv.2 spec))
    acc

def collectExpSpecs (nodes : List SortableExportNode) :
    List ExpSpecifier × List ExpSpecifier :=
  nodes.foldl
    (fun acc n =>
      match n with
      | .namedE it specs _ _ _ => collectNodeSpecs acc it specs
      | .allE _ _ _ => acc)
    ([], [])

def expNameLe (order : SortOrder) (a b : ExpSpecifier) : Bool :=
  match order with
  | .asc => strLe a.exportedName b.exportedName
  | .desc => strLe b.exportedName a.exportedName

def formatSpecifier (spec : ExpSpecifier) : String :=
  if spec.localName = spec.exportedName then spec.exportedName
  else spec.localName ++ " as " ++ spec.exportedName

def buildMergedExportText (nodes : List SortableExportNode) (order : SortOrder) :
    String :=
  match nodes with
  | [] => ""
  | [n] => nodeRaw n
  | first :: _ :: _ =>
    match first with
    | .allE _ _ raw => raw
    | .namedE _ _ none _ raw => raw
    | .namedE _ _ (some _) sourceRaw _ =>
      let collected := collectExpSpecs nodes
      let typeSpecifiers := sortLe (expNameLe order) collected.1
      let valueSpecifiers := sortLe (expNameLe order) collected.2
      let allSpecifierTexts :=
        valueSpecifiers.map formatSpecifier ++
          typeSpecifiers.map (fun s => "type " ++ formatSpecifier s)
      let specifiersText := joinSep ", " allSpecifierTexts
      if valueSpecifiers.length = 0 ∧ 0 < typeSpecifiers.length then
        "export type \x7b " ++ stripTypeMarks specifiersText ++ " \x7d from " ++
          sourceRaw ++ ";"
      else
        "export \x7b " ++ specifiersText ++ " \x7d from " ++ sourceRaw ++ ";"

theorem length_insertLe {α : Type} (le : α → α → Bool) (x : α) (l : List α) :
    (insertLe le x l).length = l.length + 1 := by
  induction l with
  | nil => simp [insertLe]
  | cons y t ih =>
    by_cases h : le x y = true <;> simp [insertLe, h, ih]

theorem length_sortLe {α : Type} (le : α → α → Bool) (l : List α) :
    (sortLe le l).length = l.length := by
  induction l with
  | nil => simp [sortLe]
  | cons x t ih => simp [sortLe, length_insertLe, ih]

/-- Claim C7: named export declarations sharing one module specifier can be
merged even when one contributing declaration is type-only and another
value-only (`canMerge` ignores `exportKind`); the merged statement puts the
value specifiers first (alphabetized by exported name) followed by the type
specifiers (alphabetized, each prefixed `type `); and when only type
specifiers remain after merging, the statement is rendered as
`export type { ... } from ...` with the per-item `type ` prefixes stripped
(shown for specifiers whose rendered text has no space, i.e. non-aliased
plain names — the `\btype `-replace is literal-faithful, so an aliased
specifier whose local name is itself `type` would additionally lose that
name, an edge case outside the claim). -/
theorem c7_export_merge (it : Bool) (specs : List ExpSpecifier) (src sourceRaw raw : String)
    (m : SortableExportNode) (rest : List SortableExportNode) (order : SortOrder)
    (ts vs : List ExpSpecifier)
    (hcollect : collectExpSpecs (.namedE it specs (some src) sourceRaw raw :: m :: rest) =
      (ts, vs)) :
    (∀ (ta tb : Bool) (sa sb : List ExpSpecifier) (src2 r1 r2 w1 w2 : String),
      canMerge (.namedE ta sa (some src2) r1 w1) (.namedE tb sb (some src2) r2 w2) = true) ∧
    (vs ≠ [] →
      buildMergedExportText (.namedE it specs (some src) sourceRaw raw :: m :: rest) order =
        "export \x7b " ++
          joinSep ", "
            ((sortLe (expNameLe order) vs).map formatSpecifier ++
              (sortLe (expNameLe order) ts).map (fun s => "type " ++ formatSpecifier s)) ++
          " \x7d from " ++ sourceRaw ++ ";") ∧
    (vs = [] → ts ≠ [] → (∀ s ∈ ts, ' ' ∉ (formatSpecifier s).data) →
      buildMergedExportText (.namedE it specs (some src) sourceRaw raw :: m :: rest) order =
        "export type \x7b " ++
          joinSep ", " ((sortLe (expNameLe order) ts).map formatSpecifier) ++
          " \x7d from " ++ sourceRaw ++ ";") := by
  refine ⟨?_, ?_, ?_⟩
  · intro ta tb sa sb src2 r1 r2 w1 w2
    simp [canMerge]
  · intro hvs
    have hlen : (sortLe (expNameLe order) vs).length ≠ 0 := by
      rw [length_sortLe]
      exact fun h => hvs (List.length_eq_zero.mp h)
    simp only [buildMergedExportText, hcollect]
    rw [if_neg]
    intro ⟨h1, h2⟩
    exact hlen h1
  · intro hvs hts hsp
    subst hvs
    have hlen : 0 < (sortLe (expNameLe order) ts).length := by
      rw [length_sortLe]
      exact List.length_pos.2 hts
    simp only [buildMergedExportText, hcollect]
    rw [if_pos ⟨by simp [sortLe], hlen⟩]
    have hnames : ∀ n ∈ (sortLe (expNameLe order) ts).map formatSpecifier, ' ' ∉ n.data := by
      intro n hn
      rw [List.mem_map] at hn
      obtain ⟨s, hs, rfl⟩ := hn
      exact hsp s ((mem_sortLe _ s _).1 hs)
    have hmm : (sortLe (expNameLe order) ts).map (fun s => "type " ++ formatSpecifier s) =
        ((sortLe (expNameLe order) ts).map formatSpecifier).map (fun n => "type " ++ n) := by
      rw [List.map_map]
      rfl
    rw [show sortLe (expNameLe order) ([] : List ExpSpecifier) = [] from rfl]
    simp only [List.map_nil, List.nil_append]
    rw [hmm, stripTypeMarks_join _ hnames]

/-- Witness for `c7_export_merge`: merging `export { b } from './m'` with
`export type { A } from './m'` yields `export { b, type A } from './m';`,
and merging two type-only exports of `B` and `A` yields
`export type { A, B } from './m';`. -/
theorem c7_export_merge_witness :
    canMerge (.namedE false [⟨"b", "b"⟩] (some "./m") "'./m'" "x")
        (.namedE true [⟨"A", "A"⟩] (some "./m") "'./m'" "y") = true ∧
      buildMergedExportText
        [.namedE false [⟨"b", "b"⟩] (some "./m") "'./m'" "export \x7b b \x7d from './m';",
          .namedE true [⟨"A", "A"⟩] (some "./m") "'./m'" "export type \x7b A \x7d from './m';"]
        .asc = "export \x7b b, type A \x7d from './m';" ∧
      buildMergedExportText
        [.namedE true [⟨"B", "B"⟩] (some "./m") "'./m'" "export type \x7b B \x7d from './m';",
          .namedE true [⟨"A", "A"⟩] (some "./m") "'./m'" "export type \x7b A \x7d from './m';"]
        .asc = "export type \x7b A, B \x7d from './m';" := by
  refine ⟨?_, ?_, ?_⟩
  · exact (c7_export_merge false [⟨"b", "b"⟩] "./m" "'./m'" "export \x7b b \x7d from './m';"
      (.namedE true [⟨"A", "A"⟩] (some "./m") "'./m'" "export type \x7b A \x7d from './m';")
      [] .asc [⟨"A", "A"⟩] [⟨"b", "b"⟩] (by decide)).1 false true [⟨"b", "b"⟩]
      [⟨"A", "A"⟩] "./m" "'./m'" "'./m'" "x" "y"
  · exact ((c7_export_merge false [⟨"b", "b"⟩] "./m" "'./m'" "export \x7b b \x7d from './m';"
      (.namedE true [⟨"A", "A"⟩] (some "./m") "'./m'" "export type \x7b A \x7d from './m';")
      [] .asc [⟨"A", "A"⟩] [⟨"b", "b"⟩] (by decide)).2.1 (by decide)).trans (by decide)
  · exact ((c7_export_merge true [⟨"B", "B"⟩] "./m" "'./m'"
      "export type \x7b B \x7d from './m';"
      (.namedE true [⟨"A", "A"⟩] (some "./m") "'./m'" "export type \x7b A \x7d from './m';")
      [] .asc [⟨"B", "B"⟩, ⟨"A", "A"⟩] [] (by decide)).2.2 rfl (by decide)
      (by decide)).trans (by decide)

/-! ## unused-variable: formatRange and the shared removed-index set

Translated from `formatRange` in `unused-variable.ts`.  The three index
loops become `firstFree`, `lastFree` and the `Finset.Icc` insertion; the
shared `removedIndex` set threaded across the sibling fixes of one
declaration statement becomes the accumulator of `processRanges`. -/

/-- The first loop of the source `formatRange`: the first index of
`[range[0], range[1]]` not yet removed (the result keeps `range[0]` when
every index is removed). -/
def firstFree (a b : Nat) (S : Finset Nat) : Nat :=
  (((List.range' a (b + 1 - a)).find? fun i => decide (i ∉ S))).getD a

/-- The second loop of the source `formatRange`: the last index of
`[result[0], range[1]]` not yet removed (the result keeps `range[1]` when
every index is removed). -/
def lastFree (r0 b : Nat) (S : Finset Nat) : Nat :=
  ((((List.range' r0 (b + 1 - r0)).reverse).find? fun i => decide (i ∉ S))).getD b

/-- Source `formatRange` of the unused-variable rule: shrinks a candidate
removal range away from already-removed character indices and marks the
realized range (inclusive, exactly as the third source loop does) as
removed. -/
def formatRange (range : Nat × Nat) (removedIndex : Finset Nat) :
    (Nat × Nat) × Finset Nat :=
  let r0 := firstFree range.1 range.2 removedIndex
  let r1 := lastFree r0 range.2 removedIndex
  ((r0, r1), removedIndex ∪ Finset.Icc r0 r1)

/-- The threading of one shared `removedIndex` set through the successive
`removePunctuatorRange` fixes of one `VariableDeclaration` visit: each
sibling diagnostic's candidate range is passed through `formatRange` with
the set accumulated by the previous siblings. -/
def processRanges : List (Nat × Nat) → Finset Nat → List (Nat × Nat) × Finset Nat
  | [], S => ([], S)
  | r :: rest, S =>
    let step := formatRange r S
    let tail := processRanges rest step.2
    (step.1 :: tail.1, tail.2)

theorem find?_none_of_mem (S : Finset Nat) :
    ∀ (n a : Nat), (∀ i, a ≤ i → i < a + n → i ∈ S) →
      (List.range' a n).find? (fun i => decide (i ∉ S)) = none := by
  intro n
  induction n with
  | zero => intro a _; simp
  | succ m ih =>
    intro a h
    rw [List.range'_succ, List.find?_cons]
    have ha : a ∈ S := h a (Nat.le_refl a) (by omega)
    have hpa : decide (a ∉ S) = false := by simp [ha]
    simp only [hpa]
    exact ih (a + 1) (fun i h1 h2 => h i (by omega) (by omega))

theorem find?_some_first (S : Finset Nat) :
    ∀ (n a m : Nat), a ≤ m → m < a + n → (∀ i, a ≤ i → i < m → i ∈ S) → m ∉ S →
      (List.range' a n).find? (fun i => decide (i ∉ S)) = some m := by
  intro n
  induction n with
  | zero => intro a m h1 h2; omega
  | succ k ih =>
    intro a m h1 h2 h3 h4
    rw [List.range'_succ, List.find?_cons]
    by_cases ham : a = m
    · subst ham
      have hpa : decide (a ∉ S) = true := by simp [h4]
      simp only [hpa]
    · have ha : a ∈ S := h3 a (Nat.le_refl a) (by omega)
      have hpa : decide (a ∉ S) = false := by simp [ha]
      simp only [hpa]
      exact ih (a + 1) m (by omega) (by omega) (fun i hi1 hi2 => h3 i (by omega) hi2) h4

theorem firstFree_eq (a b f c : Nat) (S : Finset Nat) (hab : a ≤ b) (hfb : f ≤ b)
    (hca : c ≤ a) (hSf : ∀ x ∈ S, x < f) (hfill : ∀ x, c ≤ x → x < f → x ∈ S) :
    firstFree a b S = max a f := by
  unfold firstFree
  by_cases hfa : f ≤ a
  · have : (List.range' a (b + 1 - a)).find? (fun i => decide (i ∉ S)) = some a := by
      refine find?_some_first S _ a a (Nat.le_refl a) (by omega) (by omega) ?_
      intro hmem
      exact absurd (hSf a hmem) (by omega)
    rw [this]
    simp
    omega
  · have haf : a < f := by omega
    have : (List.range' a (b + 1 - a)).find? (fun i => decide (i ∉ S)) = some f := by
      refine find?_some_first S _ a f (by omega) (by omega) ?_ ?_
      · intro i hi1 hi2
        exact hfill i (by omega) hi2
      · intro hmem
        exact absurd (hSf f hmem) (by omega)
    rw [this]
    simp
    omega

theorem lastFree_eq (r0 b : Nat) (S : Finset Nat) (hr0 : r0 ≤ b) (hb : b ∉ S) :
    lastFree r0 b S = b := by
  unfold lastFree
  have h1 : b + 1 - r0 = (b - r0) + 1 := by omega
  rw [h1, List.range'_1_concat, List.reverse_append]
  have h2 : r0 + (b - r0) = b := by omega
  rw [h2]
  simp [List.find?_cons, hb]

/-- Closed form of the realized removal ranges under `GoodChain`
conditions: each candidate is trimmed at the front to just past the
previous candidate's end. -/
def expectedOuts : Nat → List (Nat × Nat) → List (Nat × Nat)
  | _, [] => []
  | floor, (a, b) :: t => (max a floor, b) :: expectedOuts (b + 1) t

/-- The geometry of the candidate ranges produced by
`removePunctuatorRange` for the sibling diagnostics of one declaration:
`variable.identifiers[0]` ranges are pairwise disjoint and processed left
to right (`getDeclaredVariables` order), each range is extended by at most
one adjacent comma token, so a candidate can overlap only the immediately
preceding candidate (in the shared comma), never reaching back past its
end nor past any earlier candidate. -/
inductive GoodChain : List (Nat × Nat) → Prop
  | nil : GoodChain []
  | single {a b : Nat} : a ≤ b → GoodChain [(a, b)]
  | cons {a b a2 b2 : Nat} {t : List (Nat × Nat)} :
      a ≤ b → a ≤ a2 → b < b2 → (∀ e ∈ t, b < e.1) →
      GoodChain ((a2, b2) :: t) → GoodChain ((a, b) :: (a2, b2) :: t)

theorem formatRange_step (a b f c : Nat) (S : Finset Nat) (hab : a ≤ b)
    (hfb : f ≤ b) (hca : c ≤ a) (hSf : ∀ x ∈ S, x < f)
    (hfill : ∀ x, c ≤ x → x < f → x ∈ S) :
    formatRange (a, b) S = ((max a f, b), S ∪ Finset.Icc (max a f) b) := by
  unfold formatRange
  have h0 : firstFree a b S = max a f := firstFree_eq a b f c S hab hfb hca hSf hfill
  have hbS : b ∉ S := fun hmem => absurd (hSf b hmem) (by omega)
  have h1 : lastFree (max a f) b S = b := lastFree_eq (max a f) b S (by omega) hbS
  simp only [h0, h1]

theorem processRanges_eq (l : List (Nat × Nat)) (hg : GoodChain l) :
    ∀ (S : Finset Nat) (f c : Nat),
      (∀ x ∈ S, x < f) →
      (∀ x, c ≤ x → x < f → x ∈ S) →
      (∀ a b t, l = (a, b) :: t → c ≤ a ∧ f ≤ b) →
      (∀ e ∈ l.tail, f ≤ e.1) →
      (processRanges l S).1 = expectedOuts f l := by
  induction hg with
  | nil => intro S f c _ _ _ _; rfl
  | single hab =>
    rename_i a b
    intro S f c hSf hfill hhead htail
    obtain ⟨hca, hfb⟩ := hhead a b [] rfl
    simp only [processRanges, expectedOuts,
      formatRange_step a b f c S hab hfb hca hSf hfill]
  | cons hab haa2 hbb2 hskip hg2 ih =>
    rename_i a b a2 b2 t
    intro S f c hSf hfill hhead htail
    obtain ⟨hca, hfb⟩ := hhead a b ((a2, b2) :: t) rfl
    have hstep := formatRange_step a b f c S hab hfb hca hSf hfill
    have hfa2 : f ≤ a2 := htail (a2, b2) (by simp)
    have htl := ih (S ∪ Finset.Icc (max a f) b) (b + 1) (max a f)
      (by
        intro x hx
        rcases Finset.mem_union.1 hx with hx | hx
        · have := hSf x hx
          omega
        · have := Finset.mem_Icc.1 hx
          omega)
      (by
        intro x hx1 hx2
        exact Finset.mem_union.2 (Or.inr (Finset.mem_Icc.2 ⟨hx1, by omega⟩)))
      (by
        rintro a' b' t' heq
        injection heq with h1 h2
        injection h1 with h1a h1b
        subst h1a
        subst h1b
        constructor
        · omega
        · subst h2
          omega)
      (by
        intro e he
        have := hskip e he
        omega)
    simp only [processRanges, expectedOuts, hstep]
    simp only [processRanges, expectedOuts] at htl
    rw [htl]

theorem expectedOuts_gt (t : List (Nat × Nat)) :
    ∀ (a b : Nat), GoodChain ((a, b) :: t) →
      ∀ e ∈ expectedOuts (b + 1) t, b < e.1 ∧ b < e.2 := by
  induction t with
  | nil => intro a b _ e he; simp [expectedOuts] at he
  | cons p t' ih =>
    obtain ⟨a2, b2⟩ := p
    intro a b hg e he
    cases hg with
    | cons hab haa2 hbb2 hskip hg2 =>
      simp only [expectedOuts, List.mem_cons] at he
      rcases he with rfl | he'
      · constructor
        · simp only [Prod.fst]
          omega
        · exact hbb2
      · have := ih a2 b2 hg2 e he'
        constructor <;> omega

theorem goodChain_tail {p : Nat × Nat} {t : List (Nat × Nat)}
    (hg : GoodChain (p :: t)) : GoodChain t := by
  cases hg with
  | single _ => exact GoodChain.nil
  | cons _ _ _ _ hg2 => exact hg2

theorem expectedOuts_pairwise (l : List (Nat × Nat)) (hg : GoodChain l) :
    ∀ f : Nat, (expectedOuts f l).Pairwise (fun p q => p.2 < q.1) := by
  induction l with
  | nil => intro f; simp [expectedOuts]
  | cons p t ih =>
    obtain ⟨a, b⟩ := p
    intro f
    simp only [expectedOuts]
    refine List.Pairwise.cons ?_ (ih (goodChain_tail hg) (b + 1))
    intro q hq
    exact (expectedOuts_gt t a b hg q hq).1

/-- Claim C4: within one `VariableDeclaration` visit, the removal ranges
realized by the per-binding fixers threaded through the shared
removed-index set are pairwise non-overlapping: no source character index
(half-open `removeRange` semantics) is covered by two distinct sibling
diagnostics' realized ranges, for every candidate sequence with the
`GoodChain` geometry of sibling bindings. -/
theorem c4_fix_ranges_disjoint (cands : List (Nat × Nat)) (hg : GoodChain cands) :
    (processRanges cands ∅).1.Pairwise
      (fun p q => ∀ n : Nat, p.1 ≤ n → n < p.2 → ¬(q.1 ≤ n ∧ n < q.2)) := by
  have heq : (processRanges cands ∅).1 = expectedOuts 0 cands := by
    refine processRanges_eq cands hg ∅ 0 0 (by simp) (by omega) ?_ ?_
    · intro a b t _
      omega
    · intro e _
      omega
  rw [heq]
  refine (expectedOuts_pairwise cands hg 0).imp ?_
  intro p q h n h1 h2 h3
  omega

/-- Witness for `c4_fix_ranges_disjoint`: two adjacent candidate ranges
sharing characters 4-5 (the shared-comma scenario).  The second realized
removal is trimmed to start at 6, past the first realized removal, and the
two realized ranges are disjoint. -/
theorem c4_fix_ranges_disjoint_witness :
    (processRanges [(0, 5), (4, 9)] ∅).1 = [(0, 5), (6, 9)] ∧
      (processRanges [(0, 5), (4, 9)] ∅).1.Pairwise
        (fun p q => ∀ n : Nat, p.1 ≤ n → n < p.2 → ¬(q.1 ≤ n ∧ n < q.2)) :=
  ⟨by decide,
    c4_fix_ranges_disjoint [(0, 5), (4, 9)]
      (GoodChain.cons (by omega) (by omega) (by omega) (by simp)
        (GoodChain.single (by omega)))⟩


end Spec2Proof
